import Mathlib

/-!
Verification of the core of `find_unused.py` (Unity Clutter Cutter).

Shallow embedding conventions:
* Python strings are modelled as `List Char` (`Str`), so that substring,
  suffix and lowercase operations are plain list functions.
* The filesystem is modelled by `ProjectFS`: the (ordered) lists of
  `(root, filename)` pairs produced by `os.walk` over the target directory
  and over the assets directory, together with `pathExists`/`isDirPath`
  predicates and a `readFile` function.  `readFile p = none` models
  `open(p, "r", encoding="utf-8")` itself raising; `some none` models a
  file that opens but whose bytes fail to decode when `read()` is called
  (Python text-mode decoding is lazy, so `open` alone never detects it);
  `some (some content)` models a successful decoded read.  The filesystem
  is immutable during a run, matching the spec's immutability invariant.
* Python `dict` is modelled as an ordered association list with
  Python's update semantics (`dictInsert`): overwriting a present key
  keeps its position, a fresh key is appended.
* Directory paths for `find_assets_dir` are modelled as reversed lists of
  components (head = deepest component, `[]` = filesystem root), so that
  `Path.parent` is `List.tail` and `current.parent != current` is
  "the list is nonempty".
-/

set_option autoImplicit false

namespace ClutterCutter

/-- Python strings, modelled as lists of characters. -/
abbrev Str := List Char

/-- Model of `os.path.join root name` (POSIX separator). -/
def pjoin (root name : Str) : Str := root ++ ('/' :: name)

/-- Model of Python `str.lower()` (characterwise, adequate for ASCII data). -/
def lowerStr (s : Str) : Str := s.map Char.toLower

/-- Model of Python `str.endswith(suf)`. -/
def endsWith (s suf : Str) : Bool := suf == s.drop (s.length - suf.length)

/-- Model of Python `file[:-n]`: drop the last `n` characters. -/
def stripLast (s : Str) (n : Nat) : Str := s.take (s.length - n)

/-- Model of Python `needle in hay` for strings: contiguous substring test. -/
def occursIn (needle : Str) : Str → Bool
  | [] => needle.isEmpty
  | c :: t => (needle == (c :: t).take needle.length) || occursIn needle t

/-- The filesystem as seen by one run of the tool. -/
structure ProjectFS where
  /-- `os.walk(args.dir)` flattened to `(root, filename)` pairs, in order. -/
  targetWalk : List (Str × Str)
  /-- `os.walk(assets_dir)` flattened to `(root, filename)` pairs, in order. -/
  assetsWalk : List (Str × Str)
  /-- Model of `os.path.exists`. -/
  pathExists : Str → Bool
  /-- Model of `os.path.isdir`. -/
  isDirPath : Str → Bool
  /-- Result of opening a path in UTF-8 text mode and then reading it:
  `none` models `open` itself raising (missing file, permissions,
  directory); `some none` models a file that opens but fails to decode at
  `read()`; `some (some content)` models a successful decoded read. -/
  readFile : Str → Option (Option Str)

/-- The contents of a path as observed by `open(...)` followed by
`f.read()`: available exactly when the file both opens and decodes; an
exception at either step collapses to `none`. -/
def decodedRead (fs : ProjectFS) : Str → Option Str :=
  fun p => (fs.readFile p).join

/-! ### `find_assets_dir` (Project Locator)

Directory paths are reversed component lists; `[]` is the filesystem root.
`Path(start).resolve().parent ≠ current` holds exactly for nonempty lists.
The loop body checks `(current / "Assets").is_dir()` and returns
`current / "Assets"` on success; when the loop reaches the root it stops
and the function raises (modelled by `none`). -/

/-- The root-marker directory name, `"Assets"`. -/
def assetsName : Str := "Assets".toList

/-- Model of `find_assets_dir`: walk upward from `start` (reversed
components); `none` models raising `FileNotFoundError`. -/
def find_assets_dir (isDir : List Str → Bool) : List Str → Option (List Str)
  | [] => none
  | c :: rest =>
    if isDir (assetsName :: c :: rest) then some (assetsName :: c :: rest)
    else find_assets_dir isDir rest

/-! ### `get_guid_from_meta` (identifier extraction)

`re.search(r"guid: ([a-f0-9]{32})", content)` finds the leftmost position
where the literal `"guid: "` is followed by at least 32 characters of
`[a-f0-9]` and captures exactly 32 of them. -/

/-- Characters accepted by the regex class `[a-f0-9]`. -/
def isHexLowerDigit (c : Char) : Bool :=
  ('a' ≤ c && c ≤ 'f') || ('0' ≤ c && c ≤ '9')

/-- The literal part of the regex, `"guid: "`. -/
def guidLabel : Str := "guid: ".toList

/-- Whether the regex `guid: ([a-f0-9]{32})` matches at the start of `cs`;
returns the captured 32-character token on success. -/
def matchGuidAt (cs : Str) : Option Str :=
  if cs.take 6 == guidLabel && ((cs.drop 6).take 32).length == 32 &&
      ((cs.drop 6).take 32).all isHexLowerDigit then
    some ((cs.drop 6).take 32)
  else none

/-- Model of `re.search`: try every position left to right, return the first
capture. -/
def searchGuid : Str → Option Str
  | [] => none
  | c :: cs =>
    match matchGuidAt (c :: cs) with
    | some tok => some tok
    | none => searchGuid cs

/-- Model of `get_guid_from_meta`: read the sidecar file (any exception
yields `None` after a diagnostic print) and apply the regex search. -/
def get_guid_from_meta (readFile : Str → Option Str) (meta_file_path : Str) :
    Option Str :=
  match readFile meta_file_path with
  | none => none
  | some content => searchGuid content

/-! ### `find_assets_to_check` (Candidate Index Builder) -/

/-- Python `dict` assignment `d[k] = v`: replace in place when the key is
present, append otherwise. -/
def dictInsert (d : List (Str × Str)) (k v : Str) : List (Str × Str) :=
  if d.any (fun p => p.1 = k) then
    d.map (fun p => if p.1 = k then (k, v) else p)
  else d ++ [(k, v)]

/-- The suffix `".meta"` of sidecar descriptor files. -/
def metaSuffix : Str := ".meta".toList

/-- The candidate-index entry contributed by one walked file, if any:
the file must end in `".meta"`, the stripped asset path must exist and not
be a directory, and the guid extraction must succeed. -/
def metaContrib (fs : ProjectFS) (root file : Str) : Option (Str × Str) :=
  if endsWith file metaSuffix then
    let asset_path := pjoin root (stripLast file 5)
    if fs.pathExists asset_path && !(fs.isDirPath asset_path) then
      match get_guid_from_meta (decodedRead fs) (pjoin root file) with
      | some guid => some (guid, asset_path)
      | none => none
    else none
  else none

/-- Model of `find_assets_to_check`: fold Python dict assignment over the
walked files, in walk order. -/
def find_assets_to_check (fs : ProjectFS) : List (Str × Str) :=
  fs.targetWalk.foldl
    (fun assets_to_check rf =>
      match metaContrib fs rf.1 rf.2 with
      | some gv => dictInsert assets_to_check gv.1 gv.2
      | none => assets_to_check)
    []

/-- The stream of `(guid, asset path)` pairs actually assigned into the
dict, in walk order. -/
def metaStream (fs : ProjectFS) : List (Str × Str) :=
  fs.targetWalk.filterMap (fun rf => metaContrib fs rf.1 rf.2)

/-- Python `d[k]` lookup (as an option): value of the unique entry with
key `k`. -/
def dlookup (d : List (Str × Str)) (k : Str) : Option Str :=
  (d.find? (fun p => p.1 = k)).map Prod.snd

/-! ### `collect_searchable_files` (Corpus Collector) -/

/-- Model of `collect_searchable_files`: keep walked files whose lowercased
name ends with one of the lowercased extensions and whose joined path can
be opened (`open(file_path, "r", encoding="utf-8")` succeeds).  The probe
never calls `read()`, so it does not verify that the contents decode:
openable binary files pass this gate. -/
def collect_searchable_files (fs : ProjectFS) (extensions_to_check : List Str) :
    List Str :=
  let lowercase_extensions := extensions_to_check.map lowerStr
  fs.assetsWalk.filterMap (fun rf =>
    if lowercase_extensions.any (fun ext => endsWith (lowerStr rf.2) ext) then
      let file_path := pjoin rf.1 rf.2
      if (fs.readFile file_path).isSome then some file_path else none
    else none)

/-! ### `find_references_to_guid` (Reference Resolver) -/

/-- Model of `find_references_to_guid`: scan the corpus in order; a read
error skips the file; the first file whose contents contain the guid
short-circuits with `(asset_path, true)`; exhaustion yields
`(asset_path, false)`. -/
def find_references_to_guid (readFile : Str → Option Str) (guid : Str) :
    List Str → Str → Str × Bool
  | [], asset_path => (asset_path, false)
  | file_path :: rest, asset_path =>
    match readFile file_path with
    | none => find_references_to_guid readFile guid rest asset_path
    | some content =>
      if occursIn guid content then (asset_path, true)
      else find_references_to_guid readFile guid rest asset_path

/-- Whether one corpus file "matches" an identifier: it reads successfully
and its contents contain the identifier. -/
def fileMatches (readFile : Str → Option Str) (guid : Str) (file_path : Str) :
    Bool :=
  match readFile file_path with
  | none => false
  | some content => occursIn guid content

/-! ### `main` (result accumulation) -/

/-- The accumulation loop of `main`: keep, in completion order, the asset
paths of results with `found = false`. -/
def collectUnused (results : List (Str × Bool)) : List Str :=
  (results.filter (fun r => !r.2)).map Prod.fst

/-- One run of the analysis pipeline with the per-identifier results
delivered in the given completion order `order` (a permutation of the
candidate-index items, since `imap_unordered` yields each submitted item
exactly once in an unspecified order). -/
def runPipelineWithOrder (fs : ProjectFS) (extensions : List Str)
    (order : List (Str × Str)) : List Str :=
  let searchable_files := collect_searchable_files fs extensions
  collectUnused (order.map (fun gp =>
    find_references_to_guid (decodedRead fs) gp.1 searchable_files gp.2))

/-- The pipeline with results in submission order. -/
def runPipeline (fs : ProjectFS) (extensions : List Str) : List Str :=
  runPipelineWithOrder fs extensions (find_assets_to_check fs)

/-! ### Dictionary lemmas

`buildIndex` is the fold of Python dict assignment used by
`find_assets_to_check`; `lastVal` is the value of the last stream entry
for a key (last-write-wins). -/

def buildIndex (l d : List (Str × Str)) : List (Str × Str) :=
  l.foldl (fun acc gv => dictInsert acc gv.1 gv.2) d

def lastVal (l : List (Str × Str)) (g : Str) : Option Str :=
  ((l.filter (fun x => x.1 = g)).map Prod.snd).getLast?

theorem map_fst_dictInsert (d : List (Str × Str)) (k v : Str) :
    (dictInsert d k v).map Prod.fst =
      if d.any (fun p => p.1 = k) then d.map Prod.fst else d.map Prod.fst ++ [k] := by
  unfold dictInsert
  cases h : d.any (fun p => p.1 = k) <;> simp [h]
  intro a b _
  by_cases hak : a = k <;> simp [hak]

theorem nodup_keys_dictInsert (d : List (Str × Str)) (k v : Str)
    (h : (d.map Prod.fst).Nodup) : ((dictInsert d k v).map Prod.fst).Nodup := by
  rw [map_fst_dictInsert]
  cases hany : d.any (fun p => p.1 = k) <;> simp [hany]
  · have hnotmem : k ∉ d.map Prod.fst := by
      simp only [List.any_eq_false, decide_eq_true_eq] at hany
      simp only [List.mem_map]
      rintro ⟨p, hp, hpk⟩
      exact hany p hp hpk
    rw [List.nodup_append]
    refine ⟨h, List.nodup_singleton k, ?_⟩
    intro a ha hk
    simp only [List.mem_singleton] at hk
    exact hnotmem (hk ▸ ha)
  · exact h

theorem mem_dictInsert (d : List (Str × Str)) (k v : Str) (x : Str × Str)
    (h : x ∈ dictInsert d k v) : x = (k, v) ∨ x ∈ d := by
  unfold dictInsert at h
  cases hany : d.any (fun p => p.1 = k) <;> rw [hany] at h <;> simp only [if_true, if_false, Bool.false_eq_true, Bool.true_eq_false, reduceIte] at h
  · rw [List.mem_append, List.mem_singleton] at h
    tauto
  · rw [List.mem_map] at h
    obtain ⟨p, hp, hpx⟩ := h
    by_cases hpk : p.1 = k
    · left
      simp only [hpk, if_true, reduceIte] at hpx
      exact hpx.symm
    · right
      simp only [hpk, if_false, reduceIte] at hpx
      exact hpx ▸ hp

theorem find?_replace (d : List (Str × Str)) (k v g : Str) :
    (d.map (fun p => if p.1 = k then (k, v) else p)).find? (fun p => p.1 = g) =
      if g = k then (d.find? (fun p => p.1 = k)).map (fun _ => (k, v))
      else d.find? (fun p => p.1 = g) := by
  induction d with
  | nil => by_cases hgk : g = k <;> simp [hgk]
  | cons a t ih =>
    rw [List.map_cons]
    by_cases hak : a.1 = k
    · rw [if_pos hak]
      by_cases hgk : g = k
      · rw [@List.find?_cons_of_pos (Str × Str) (fun p => decide (p.1 = g)) (k, v) _
            (by simp [hgk]),
          @List.find?_cons_of_pos (Str × Str) (fun p => decide (p.1 = k)) a _
            (by simp [hak]),
          if_pos hgk]
        simp
      · rw [@List.find?_cons_of_neg (Str × Str) (fun p => decide (p.1 = g)) (k, v) _
            (by simpa using fun hc => hgk hc.symm),
          @List.find?_cons_of_neg (Str × Str) (fun p => decide (p.1 = g)) a _
            (by simpa using fun hc => hgk (by rw [← hc, hak])),
          ih]
        simp [hgk]
    · by_cases hgk : g = k
      · have hag : ¬a.1 = g := fun hc => hak (hgk ▸ hc)
        rw [if_neg hak,
          @List.find?_cons_of_neg (Str × Str) (fun p => decide (p.1 = g)) a _
            (by simpa using hag),
          @List.find?_cons_of_neg (Str × Str) (fun p => decide (p.1 = k)) a _
            (by simpa using hak),
          ih]
        simp [hgk]
      · by_cases hag : a.1 = g
        · rw [if_neg hak,
            @List.find?_cons_of_pos (Str × Str) (fun p => decide (p.1 = g)) a _
              (by simp [hag]),
            @List.find?_cons_of_pos (Str × Str) (fun p => decide (p.1 = g)) a _
              (by simp [hag])]
          simp [hgk]
        · rw [if_neg hak,
            @List.find?_cons_of_neg (Str × Str) (fun p => decide (p.1 = g)) a _
              (by simpa using hag),
            @List.find?_cons_of_neg (Str × Str) (fun p => decide (p.1 = g)) a _
              (by simpa using hag),
            ih]
          simp [hgk]

theorem dlookup_dictInsert (d : List (Str × Str)) (k v g : Str) :
    dlookup (dictInsert d k v) g = if g = k then some v else dlookup d g := by
  unfold dictInsert dlookup
  cases hany : d.any (fun p => p.1 = k)
  · simp only [Bool.false_eq_true, if_false, reduceIte]
    rw [List.find?_append]
    have hnok : d.find? (fun p => p.1 = k) = none := by
      rw [List.find?_eq_none]
      intro x hx
      simp only [List.any_eq_false, decide_eq_true_eq] at hany
      simp only [decide_eq_true_eq]
      exact hany x hx
    by_cases hgk : g = k
    · have hnog : d.find? (fun p => p.1 = g) = none := hgk ▸ hnok
      rw [hnog, List.find?_cons_of_pos _ (by simp [hgk.symm])]
      simp [hgk]
    · have hkg : ¬(k = g) := fun hc => hgk hc.symm
      rw [List.find?_cons_of_neg _ (by simpa using hkg)]
      simp [hgk]
  · simp only [if_true, reduceIte]
    rw [find?_replace]
    by_cases hgk : g = k
    · simp only [hgk, if_true, reduceIte]
      cases hfind : d.find? (fun p => p.1 = k) with
      | none =>
        rw [List.find?_eq_none] at hfind
        simp only [List.any_eq_true, decide_eq_true_eq] at hany
        obtain ⟨x, hx, hxk⟩ := hany
        exact absurd (by simpa using hxk) (by simpa using hfind x hx)
      | some a => simp
    · simp [hgk]

theorem nodup_keys_buildIndex :
    ∀ (l d : List (Str × Str)), (d.map Prod.fst).Nodup →
      ((buildIndex l d).map Prod.fst).Nodup := by
  intro l
  induction l with
  | nil => intro d h; exact h
  | cons a t ih =>
    intro d h
    exact ih (dictInsert d a.1 a.2) (nodup_keys_dictInsert d a.1 a.2 h)

theorem mem_buildIndex :
    ∀ (l d : List (Str × Str)) (x : Str × Str),
      x ∈ buildIndex l d → x ∈ d ∨ x ∈ l := by
  intro l
  induction l with
  | nil => intro d x h; exact Or.inl h
  | cons a t ih =>
    intro d x h
    rcases ih (dictInsert d a.1 a.2) x h with h1 | h2
    · rcases mem_dictInsert d a.1 a.2 x h1 with h3 | h4
      · right; rw [h3]; exact List.mem_cons_self a t
      · left; exact h4
    · right; exact List.mem_cons_of_mem a h2

theorem getLast?_cons_eq_or {α : Type} (x : α) (xs : List α) :
    (x :: xs).getLast? = xs.getLast?.or (some x) := by
  induction xs with
  | nil => rfl
  | cons y ys ih =>
    rw [List.getLast?_cons_cons]
    cases h : (y :: ys).getLast? with
    | none => simp at h
    | some z => rfl

theorem dlookup_buildIndex :
    ∀ (l d : List (Str × Str)) (g : Str),
      dlookup (buildIndex l d) g = (lastVal l g).or (dlookup d g) := by
  intro l
  induction l with
  | nil => intro d g; simp [buildIndex, lastVal, Option.none_or]
  | cons a t ih =>
    intro d g
    have hstep : buildIndex (a :: t) d = buildIndex t (dictInsert d a.1 a.2) := rfl
    rw [hstep, ih, dlookup_dictInsert]
    by_cases hag : a.1 = g
    · have hga : g = a.1 := hag.symm
      rw [if_pos hga]
      have hfilter : lastVal (a :: t) g = (lastVal t g).or (some a.2) := by
        unfold lastVal
        rw [List.filter_cons, if_pos (by simp [hag])]
        rw [List.map_cons, getLast?_cons_eq_or]
      rw [hfilter, Option.or_assoc, Option.or_some]
    · have hga : ¬g = a.1 := fun hc => hag hc.symm
      rw [if_neg hga]
      have hfilter : lastVal (a :: t) g = lastVal t g := by
        unfold lastVal
        rw [List.filter_cons, if_neg (by simpa using hag)]
      rw [hfilter]

theorem foldl_filterMap_eq {α β γ : Type} (f : α → Option β) (g : γ → β → γ) :
    ∀ (l : List α) (init : γ),
      (l.filterMap f).foldl g init =
        l.foldl (fun acc x => match f x with | some b => g acc b | none => acc) init := by
  intro l
  induction l with
  | nil => intro init; rfl
  | cons a t ih =>
    intro init
    cases h : f a <;> simp [List.filterMap_cons, h, ih]

/-! ### Resolver lemmas -/

theorem find_references_to_guid_eq (readFile : Str → Option Str) (guid : Str) :
    ∀ (files : List Str) (asset_path : Str),
      find_references_to_guid readFile guid files asset_path =
        (asset_path, files.any (fun f => fileMatches readFile guid f)) := by
  intro files
  induction files with
  | nil => intro p; rfl
  | cons f rest ih =>
    intro p
    cases h : readFile f with
    | none => simp [find_references_to_guid, h, ih, List.any_cons, fileMatches]
    | some content =>
      by_cases hocc : occursIn guid content = true
      · simp [find_references_to_guid, h, hocc, List.any_cons, fileMatches]
      · simp [find_references_to_guid, h, hocc, ih, List.any_cons, fileMatches]

theorem find_references_false_iff (readFile : Str → Option Str) (guid : Str)
    (files : List Str) (asset_path : Str) :
    find_references_to_guid readFile guid files asset_path = (asset_path, false) ↔
      ∀ f ∈ files, fileMatches readFile guid f = false := by
  rw [find_references_to_guid_eq, Prod.mk.injEq]
  simp only [true_and]
  constructor
  · intro h f hf
    exact Bool.eq_false_iff.mpr (List.any_eq_false.mp h f hf)
  · intro h
    apply List.any_eq_false.mpr
    intro f hf
    simp [h f hf]

/-! ### Corpus Collector lemmas -/

/-- The extension filter of `collect_searchable_files`, as a predicate on a
walked file name. -/
def extSelected (extensions_to_check : List Str) (name : Str) : Bool :=
  (extensions_to_check.map lowerStr).any (fun ext => endsWith (lowerStr name) ext)

theorem mem_collect_searchable_files (fs : ProjectFS) (exts : List Str) (p : Str) :
    p ∈ collect_searchable_files fs exts ↔
      ∃ rf ∈ fs.assetsWalk, pjoin rf.1 rf.2 = p ∧ extSelected exts rf.2 = true ∧
        (fs.readFile p).isSome = true := by
  unfold collect_searchable_files extSelected
  rw [List.mem_filterMap]
  constructor
  · rintro ⟨rf, hrf, hsome⟩
    by_cases hext : ((exts.map lowerStr).any (fun ext => endsWith (lowerStr rf.2) ext)) = true
    · rw [if_pos hext] at hsome
      by_cases hread : (fs.readFile (pjoin rf.1 rf.2)).isSome = true
      · rw [if_pos hread] at hsome
        have hp : pjoin rf.1 rf.2 = p := by injection hsome
        exact ⟨rf, hrf, hp, hext, hp ▸ hread⟩
      · rw [if_neg hread] at hsome; cases hsome
    · rw [if_neg hext] at hsome; cases hsome
  · rintro ⟨rf, hrf, hp, hext, hread⟩
    refine ⟨rf, hrf, ?_⟩
    rw [if_pos hext, if_pos (hp ▸ hread : (fs.readFile (pjoin rf.1 rf.2)).isSome = true)]
    rw [hp]

/-! ### Candidate Index lemmas -/

theorem metaContrib_some (fs : ProjectFS) (root file g p : Str)
    (h : metaContrib fs root file = some (g, p)) :
    endsWith file metaSuffix = true ∧ p = pjoin root (stripLast file 5) ∧
      fs.pathExists p = true ∧ fs.isDirPath p = false ∧
      get_guid_from_meta (decodedRead fs) (pjoin root file) = some g := by
  unfold metaContrib at h
  by_cases h1 : endsWith file metaSuffix = true
  · rw [if_pos h1] at h
    by_cases h2 : (fs.pathExists (pjoin root (stripLast file 5)) &&
        !fs.isDirPath (pjoin root (stripLast file 5))) = true
    · rw [if_pos h2] at h
      cases hg : get_guid_from_meta (decodedRead fs) (pjoin root file) with
      | none => rw [hg] at h; cases h
      | some g0 =>
        rw [hg] at h
        have hpair : (g0, pjoin root (stripLast file 5)) = (g, p) := by injection h
        have hg0 : g0 = g := congrArg Prod.fst hpair
        have hpp : pjoin root (stripLast file 5) = p := congrArg Prod.snd hpair
        rw [Bool.and_eq_true, Bool.not_eq_true'] at h2
        refine ⟨h1, hpp.symm, ?_, ?_, ?_⟩
        · rw [← hpp]; exact h2.1
        · rw [← hpp]; exact h2.2
        · exact congrArg some hg0
    · rw [if_neg h2] at h; cases h
  · rw [if_neg h1] at h; cases h

theorem find_assets_to_check_eq (fs : ProjectFS) :
    find_assets_to_check fs = buildIndex (metaStream fs) [] := by
  unfold find_assets_to_check metaStream buildIndex
  rw [foldl_filterMap_eq]
  apply List.foldl_ext
  intro acc rf _
  cases metaContrib fs rf.1 rf.2 <;> rfl

theorem nodup_keys_index (fs : ProjectFS) :
    ((find_assets_to_check fs).map Prod.fst).Nodup := by
  rw [find_assets_to_check_eq]
  exact nodup_keys_buildIndex _ [] (by simp)

theorem mem_index_mem_stream (fs : ProjectFS) (x : Str × Str)
    (h : x ∈ find_assets_to_check fs) : x ∈ metaStream fs := by
  rw [find_assets_to_check_eq] at h
  rcases mem_buildIndex _ _ _ h with h1 | h2
  · cases h1
  · exact h2

/-! ### Regex search lemmas -/

theorem matchGuidAt_some (cs tok : Str) (h : matchGuidAt cs = some tok) :
    cs.take 6 = guidLabel ∧ tok = (cs.drop 6).take 32 ∧ tok.length = 32 ∧
      tok.all isHexLowerDigit = true := by
  unfold matchGuidAt at h
  by_cases hc : (cs.take 6 == guidLabel && ((cs.drop 6).take 32).length == 32 &&
      ((cs.drop 6).take 32).all isHexLowerDigit) = true
  · rw [if_pos hc] at h
    have htok : (cs.drop 6).take 32 = tok := by injection h
    simp only [Bool.and_eq_true, beq_iff_eq] at hc
    exact ⟨hc.1.1, htok.symm, htok ▸ hc.1.2, htok ▸ hc.2⟩
  · rw [if_neg hc] at h; cases h

theorem searchGuid_some (cs tok : Str) (h : searchGuid cs = some tok) :
    ∃ i, matchGuidAt (cs.drop i) = some tok ∧
      ∀ j, j < i → matchGuidAt (cs.drop j) = none := by
  induction cs with
  | nil => cases h
  | cons c rest ih =>
    unfold searchGuid at h
    cases hm : matchGuidAt (c :: rest) with
    | some t =>
      rw [hm] at h
      have ht : t = tok := by injection h
      exact ⟨0, by simpa [ht] using hm, fun j hj => absurd hj (Nat.not_lt_zero j)⟩
    | none =>
      rw [hm] at h
      obtain ⟨i, hi, hj⟩ := ih h
      refine ⟨i + 1, by simpa using hi, ?_⟩
      intro j hj'
      cases j with
      | zero => simpa using hm
      | succ j0 => simpa using hj j0 (Nat.lt_of_succ_lt_succ hj')

theorem searchGuid_none (cs : Str) (h : searchGuid cs = none) :
    ∀ i, matchGuidAt (cs.drop i) = none := by
  induction cs with
  | nil =>
    intro i
    rw [List.drop_nil]
    rfl
  | cons c rest ih =>
    intro i
    unfold searchGuid at h
    cases hm : matchGuidAt (c :: rest) with
    | some t => rw [hm] at h; cases h
    | none =>
      rw [hm] at h
      cases i with
      | zero => simpa using hm
      | succ i0 => simpa using ih h i0

/-! ### Pipeline lemmas -/

theorem runPipelineWithOrder_eq (fs : ProjectFS) (exts : List Str)
    (order : List (Str × Str)) :
    runPipelineWithOrder fs exts order =
      (order.filter (fun gp => !((collect_searchable_files fs exts).any
        (fun f => fileMatches (decodedRead fs) gp.1 f)))).map Prod.snd := by
  simp only [runPipelineWithOrder, collectUnused]
  have h1 : order.map (fun gp =>
      find_references_to_guid (decodedRead fs) gp.1 (collect_searchable_files fs exts) gp.2) =
      order.map (fun gp => (gp.2, (collect_searchable_files fs exts).any
        (fun f => fileMatches (decodedRead fs) gp.1 f))) :=
    List.map_congr_left (fun gp _ => find_references_to_guid_eq (decodedRead fs) gp.1 _ gp.2)
  rw [h1, List.filter_map, List.map_map]
  rfl

theorem mem_runPipelineWithOrder (fs : ProjectFS) (exts : List Str)
    (order : List (Str × Str)) (p : Str) :
    p ∈ runPipelineWithOrder fs exts order ↔
      ∃ gp ∈ order, gp.2 = p ∧
        ((collect_searchable_files fs exts).any
          (fun f => fileMatches (decodedRead fs) gp.1 f)) = false := by
  rw [runPipelineWithOrder_eq]
  simp only [List.mem_map, List.mem_filter, Bool.not_eq_true']
  constructor
  · rintro ⟨gp, ⟨hgp, hany⟩, hsnd⟩
    exact ⟨gp, hgp, hsnd, hany⟩
  · rintro ⟨gp, hgp, hsnd, hany⟩
    exact ⟨gp, ⟨hgp, hany⟩, hsnd⟩

theorem not_mem_runPipeline_of_match (fs : ProjectFS) (exts : List Str) (g p f : Str)
    (hmem : (g, p) ∈ find_assets_to_check fs)
    (hvals : ((find_assets_to_check fs).map Prod.snd).Nodup)
    (hf : f ∈ collect_searchable_files fs exts)
    (hmatch : fileMatches (decodedRead fs) g f = true) :
    p ∉ runPipeline fs exts := by
  unfold runPipeline
  rw [mem_runPipelineWithOrder]
  rintro ⟨gp, hgp, hsnd, hany⟩
  have hgpe : gp = (g, p) :=
    List.inj_on_of_nodup_map hvals hgp hmem (by simpa using hsnd)
  rw [hgpe] at hany
  have : (collect_searchable_files fs exts).any
      (fun q => fileMatches (decodedRead fs) g q) = true :=
    List.any_eq_true.mpr ⟨f, hf, hmatch⟩
  rw [this] at hany
  cases hany

theorem count_eq_one_of_nodup_mem (l : List Str) (a : Str)
    (h : l.Nodup) (hm : a ∈ l) : l.count a = 1 := by
  induction l with
  | nil => cases hm
  | cons x t ih =>
    rw [List.nodup_cons] at h
    rcases List.mem_cons.mp hm with h1 | h2
    · have hnot : t.count a = 0 := by
        rw [List.count_eq_zero]
        rw [h1]
        exact h.1
      rw [List.count_cons, hnot, if_pos (by simp [h1])]
    · have hxa : ¬(x == a) = true := by
        intro hc
        exact h.1 ((beq_iff_eq.mp hc) ▸ h2)
      rw [List.count_cons, ih h.2 h2, if_neg hxa]

/-! ### Project Locator lemmas -/

theorem find_assets_dir_none_iff (isDir : List Str → Bool) :
    ∀ start : List Str,
      find_assets_dir isDir start = none ↔
        ∀ s, s ≠ [] → s <:+ start → isDir (assetsName :: s) = false := by
  intro start
  induction start with
  | nil =>
    constructor
    · intro _ s hs hsuf
      rw [List.suffix_nil] at hsuf
      exact absurd hsuf hs
    · intro _; rfl
  | cons c rest ih =>
    constructor
    · intro h s hs hsuf
      unfold find_assets_dir at h
      by_cases hd : isDir (assetsName :: c :: rest) = true
      · rw [if_pos hd] at h; cases h
      · rw [if_neg hd] at h
        rcases List.suffix_cons_iff.mp hsuf with h1 | h2
        · rw [h1]; exact Bool.eq_false_iff.mpr hd
        · exact (ih.mp h) s hs h2
    · intro h
      unfold find_assets_dir
      have hd : isDir (assetsName :: c :: rest) = false :=
        h (c :: rest) (List.cons_ne_nil c rest) (List.suffix_refl _)
      rw [if_neg (by simp [hd])]
      exact ih.mpr (fun s hs hsuf => h s hs (hsuf.trans (List.suffix_cons c rest)))

theorem find_assets_dir_some (isDir : List Str → Bool) :
    ∀ (start r : List Str), find_assets_dir isDir start = some r →
      ∃ s, s ≠ [] ∧ s <:+ start ∧ r = assetsName :: s ∧ isDir r = true ∧
        ∀ t, t ≠ [] → t <:+ start → s.length < t.length →
          isDir (assetsName :: t) = false := by
  intro start
  induction start with
  | nil => intro r h; cases h
  | cons c rest ih =>
    intro r h
    unfold find_assets_dir at h
    by_cases hd : isDir (assetsName :: c :: rest) = true
    · rw [if_pos hd] at h
      have hr : assetsName :: c :: rest = r := by injection h
      refine ⟨c :: rest, List.cons_ne_nil c rest, List.suffix_refl _, hr.symm,
        hr ▸ hd, ?_⟩
      intro t _ htsuf hlen
      have := htsuf.length_le
      simp only [List.length_cons] at hlen this
      omega
    · rw [if_neg hd] at h
      obtain ⟨s, hs, hsuf, hr, hdir, hmax⟩ := ih r h
      refine ⟨s, hs, hsuf.trans (List.suffix_cons c rest), hr, hdir, ?_⟩
      intro t ht htsuf hlen
      rcases List.suffix_cons_iff.mp htsuf with h1 | h2
      · rw [h1]; exact Bool.eq_false_iff.mpr hd
      · exact hmax t ht h2 hlen

/-! ### Key-uniqueness helpers -/

theorem length_filter_key_eq_one (d : List (Str × Str)) (g : Str)
    (hnd : (d.map Prod.fst).Nodup) (hmem : g ∈ d.map Prod.fst) :
    (d.filter (fun x => x.1 = g)).length = 1 := by
  induction d with
  | nil => cases hmem
  | cons a t ih =>
    rw [List.map_cons, List.nodup_cons] at hnd
    rw [List.map_cons, List.mem_cons] at hmem
    rw [List.filter_cons]
    by_cases hag : a.1 = g
    · rw [if_pos (by simp [hag])]
      have hnil : t.filter (fun x => x.1 = g) = [] := by
        rw [List.filter_eq_nil_iff]
        intro x hx
        simp only [decide_eq_true_eq]
        intro hxg
        exact hnd.1 (hag ▸ hxg ▸ List.mem_map_of_mem Prod.fst hx)
      rw [hnil]
      rfl
    · rw [if_neg (by simpa using hag)]
      rcases hmem with h1 | h2
      · exact absurd h1.symm hag
      · exact ih hnd.2 h2

theorem dlookup_isSome_key_mem (d : List (Str × Str)) (g : Str)
    (h : (dlookup d g).isSome = true) : g ∈ d.map Prod.fst := by
  unfold dlookup at h
  cases hf : d.find? (fun p => p.1 = g) with
  | none => rw [hf] at h; cases h
  | some q =>
    have hq := List.find?_some hf
    simp only [decide_eq_true_eq] at hq
    exact hq ▸ List.mem_map_of_mem Prod.fst (List.mem_of_find?_eq_some hf)

/-! ### Concrete witness data

A small project: three assets `x.mat`, `y.mat`, `z.mat` with sidecars,
one openable-but-undecodable `bin.mat`; `y.mat` is referenced from
`x.mat`, `z.mat` references itself, and `x.mat` is referenced nowhere. -/

/-- A 32-character lowercase hex guid (all `a`). -/
def gA : Str := "aaaaaaaaaaaaaaaaaaaaaaaaaaaaaaaa".toList

/-- A 32-character lowercase hex guid (all `b`). -/
def gB : Str := "bbbbbbbbbbbbbbbbbbbbbbbbbbbbbbbb".toList

/-- A 32-character lowercase hex guid (all `c`). -/
def gC : Str := "cccccccccccccccccccccccccccccccc".toList

/-- The sample project filesystem. -/
def sampleFS : ProjectFS where
  targetWalk := [("r".toList, "x.mat.meta".toList), ("r".toList, "y.mat.meta".toList),
    ("r".toList, "z.mat.meta".toList)]
  assetsWalk := [("r".toList, "x.mat".toList), ("r".toList, "y.mat".toList),
    ("r".toList, "z.mat".toList), ("r".toList, "bin.mat".toList)]
  pathExists := fun p =>
    p == "r/x.mat".toList || p == "r/y.mat".toList || p == "r/z.mat".toList
  isDirPath := fun _ => false
  readFile := fun p =>
    if p == "r/x.mat.meta".toList then some (some (guidLabel ++ gA))
    else if p == "r/y.mat.meta".toList then some (some (guidLabel ++ gB))
    else if p == "r/z.mat.meta".toList then some (some (guidLabel ++ gC))
    else if p == "r/x.mat".toList then some (some gB)
    else if p == "r/y.mat".toList then some (some [])
    else if p == "r/z.mat".toList then some (some ('s' :: gC))
    else if p == "r/bin.mat".toList then some none
    else none

/-- The extension list `[".mat"]`. -/
def matExt : List Str := [".mat".toList]

/-- A project in which two sidecar files declare the same guid `gA`. -/
def sampleDupFS : ProjectFS where
  targetWalk := [("r".toList, "x.mat.meta".toList), ("r".toList, "y.mat.meta".toList)]
  assetsWalk := []
  pathExists := fun p => p == "r/x.mat".toList || p == "r/y.mat".toList
  isDirPath := fun _ => false
  readFile := fun p =>
    if p == "r/x.mat.meta".toList then some (some (guidLabel ++ gA))
    else if p == "r/y.mat.meta".toList then some (some (guidLabel ++ gA))
    else none

/-! ### Claim theorems -/

/-- C1: for every candidate identifier `g` (with asset `p`) that occurs as a
substring of the contents of at least one decodable corpus file `f`, the
per-identifier search returns `(p, true)` and `p` is not in the Result Set.
(The index is assumed to map distinct identifiers to distinct asset paths,
which holds on a real filesystem where distinct sidecar files strip to
distinct asset paths.) -/
theorem claim1_no_false_positives (fs : ProjectFS) (exts : List Str) (g p f : Str)
    (hmem : (g, p) ∈ find_assets_to_check fs)
    (hvals : ((find_assets_to_check fs).map Prod.snd).Nodup)
    (hf : f ∈ collect_searchable_files fs exts)
    (hmatch : fileMatches (decodedRead fs) g f = true) :
    find_references_to_guid (decodedRead fs) g (collect_searchable_files fs exts) p =
      (p, true) ∧ p ∉ runPipeline fs exts := by
  constructor
  · rw [find_references_to_guid_eq, List.any_eq_true.mpr ⟨f, hf, hmatch⟩]
  · exact not_mem_runPipeline_of_match fs exts g p f hmem hvals hf hmatch

/-- Witness for C1 on the sample project: `gB` occurs in `r/x.mat`, so
`r/y.mat` is found referenced and excluded from the Result Set. -/
theorem claim1_witness :
    find_references_to_guid (decodedRead sampleFS) gB
      (collect_searchable_files sampleFS matExt) ("r/y.mat".toList) =
      ("r/y.mat".toList, true) ∧
    "r/y.mat".toList ∉ runPipeline sampleFS matExt :=
  claim1_no_false_positives sampleFS matExt gB ("r/y.mat".toList) ("r/x.mat".toList)
    (by decide) (by decide) (by decide) (by decide)

/-- C2: every candidate identifier that occurs in no corpus file has its
asset in the Result Set exactly once. -/
theorem claim2_unused_reported_once (fs : ProjectFS) (exts : List Str) (g p : Str)
    (hmem : (g, p) ∈ find_assets_to_check fs)
    (hvals : ((find_assets_to_check fs).map Prod.snd).Nodup)
    (hunused : ∀ f ∈ collect_searchable_files fs exts,
      fileMatches (decodedRead fs) g f = false) :
    (runPipeline fs exts).count p = 1 := by
  unfold runPipeline
  rw [runPipelineWithOrder_eq]
  apply count_eq_one_of_nodup_mem
  · exact List.Nodup.sublist ((List.filter_sublist _).map Prod.snd) hvals
  · rw [List.mem_map]
    refine ⟨(g, p), List.mem_filter.mpr ⟨hmem, ?_⟩, rfl⟩
    rw [Bool.not_eq_true']
    exact List.any_eq_false.mpr (fun f hf => by simp [hunused f hf])

/-- Witness for C2 on the sample project: `gA` occurs nowhere, so `r/x.mat`
appears exactly once in the Result Set. -/
theorem claim2_witness : (runPipeline sampleFS matExt).count ("r/x.mat".toList) = 1 :=
  claim2_unused_reported_once sampleFS matExt gA ("r/x.mat".toList)
    (by decide) (by decide) (by decide)

/-- C3 (code behaviour at the failing input): the walked file `r/bin.mat`
matches the extension filter and opens, but its contents do not decode
(`readFile = some none`).  Because the collection probe only calls `open`
and Python text-mode decoding is lazy, the Corpus Collector INCLUDES the
undecodable file in the returned corpus list, contrary to the claim (and
to the code's own comments); the file is skipped only later, at search
time, where its failing `read()` makes it a non-match. -/
theorem claim3_undecodable_included :
    sampleFS.readFile ("r/bin.mat".toList) = some none ∧
      decodedRead sampleFS ("r/bin.mat".toList) = none ∧
      "r/bin.mat".toList ∈ collect_searchable_files sampleFS matExt ∧
      find_references_to_guid (decodedRead sampleFS) gA ["r/bin.mat".toList]
        ("r/x.mat".toList) = ("r/x.mat".toList, false) := by
  decide

/-- C9: every asset path recorded in the Candidate Index exists and is not a
directory (as observed by the immutable run filesystem at index-build time). -/
theorem claim9_index_paths_exist (fs : ProjectFS) (g p : Str)
    (hmem : (g, p) ∈ find_assets_to_check fs) :
    fs.pathExists p = true ∧ fs.isDirPath p = false := by
  have hst := mem_index_mem_stream fs (g, p) hmem
  unfold metaStream at hst
  rw [List.mem_filterMap] at hst
  obtain ⟨rf, _, hc⟩ := hst
  obtain ⟨_, _, he, hd, _⟩ := metaContrib_some fs rf.1 rf.2 g p hc
  exact ⟨he, hd⟩

/-- Witness for C9 on the sample project. -/
theorem claim9_witness :
    sampleFS.pathExists ("r/x.mat".toList) = true ∧
      sampleFS.isDirPath ("r/x.mat".toList) = false :=
  claim9_index_paths_exist sampleFS gA ("r/x.mat".toList) (by decide)

/-- C10: an asset whose own file passes the extension filter and decodes is
itself part of the corpus searched for its identifier, so an asset whose
contents contain its own identifier is treated as referenced and never
reported unused. -/
theorem claim10_self_reference (fs : ProjectFS) (exts : List Str)
    (g p c : Str) (rf : Str × Str)
    (hmem : (g, p) ∈ find_assets_to_check fs)
    (hvals : ((find_assets_to_check fs).map Prod.snd).Nodup)
    (hrf : rf ∈ fs.assetsWalk) (hjoin : pjoin rf.1 rf.2 = p)
    (hext : extSelected exts rf.2 = true)
    (hread : decodedRead fs p = some c) (hocc : occursIn g c = true) :
    p ∈ collect_searchable_files fs exts ∧
      find_references_to_guid (decodedRead fs) g (collect_searchable_files fs exts) p =
        (p, true) ∧
      p ∉ runPipeline fs exts := by
  have hopen : (fs.readFile p).isSome = true := by
    unfold decodedRead at hread
    cases hfs : fs.readFile p with
    | none => rw [hfs] at hread; cases hread
    | some o => rfl
  have hp : p ∈ collect_searchable_files fs exts :=
    (mem_collect_searchable_files fs exts p).mpr ⟨rf, hrf, hjoin, hext, hopen⟩
  have hm : fileMatches (decodedRead fs) g p = true := by
    unfold fileMatches
    rw [hread]
    exact hocc
  refine ⟨hp, ?_, not_mem_runPipeline_of_match fs exts g p p hmem hvals hp hm⟩
  rw [find_references_to_guid_eq, List.any_eq_true.mpr ⟨p, hp, hm⟩]

/-- Witness for C10 on the sample project: `r/z.mat` contains its own guid
`gC` and is accordingly never reported unused. -/
theorem claim10_witness :
    "r/z.mat".toList ∈ collect_searchable_files sampleFS matExt ∧
      find_references_to_guid (decodedRead sampleFS) gC
        (collect_searchable_files sampleFS matExt) ("r/z.mat".toList) =
        ("r/z.mat".toList, true) ∧
      "r/z.mat".toList ∉ runPipeline sampleFS matExt :=
  claim10_self_reference sampleFS matExt gC ("r/z.mat".toList) ('s' :: gC)
    ("r".toList, "z.mat".toList) (by decide) (by decide) (by decide) (by decide)
    (by decide) (by decide) (by decide)

/-- An `is_dir` oracle for which the marker directory exists only directly
under the filesystem root. -/
def rootMarkerOnly : List Str → Bool := fun p => p == [assetsName]

/-- An `is_dir` oracle for which the marker directory exists only under the
directory `/a`. -/
def childMarker : List Str → Bool := fun p => p == [assetsName, "a".toList]

/-- C4 counterexample: starting from `/a` when the marker exists only at the
filesystem root (`/Assets`), the locator raises instead of returning it —
the root is never examined; moreover, on success the locator returns the
marker directory's own path, not the ancestor containing it. -/
theorem claim4_counterexample :
    (rootMarkerOnly [assetsName] = true ∧
      find_assets_dir rootMarkerOnly ["a".toList] = none) ∧
    (find_assets_dir childMarker ["a".toList] = some [assetsName, "a".toList] ∧
      some [assetsName, "a".toList] ≠ some ["a".toList]) := by
  decide

/-- C4 (amended): the locator examines the start directory and every proper
ancestor strictly below the filesystem root, in order upward; it raises
exactly when none of them (the root itself is never examined) contains the
marker, and on success returns the marker path `ancestor/Assets` of the
first (deepest) such ancestor. Paths are reversed component lists, so
ancestors are the nonempty suffixes of the start path. -/
theorem claim4_amended (isDir : List Str → Bool) (start : List Str) :
    (find_assets_dir isDir start = none ↔
      ∀ s, s ≠ [] → s <:+ start → isDir (assetsName :: s) = false) ∧
    (∀ r, find_assets_dir isDir start = some r →
      ∃ s, s ≠ [] ∧ s <:+ start ∧ r = assetsName :: s ∧ isDir r = true ∧
        ∀ t, t ≠ [] → t <:+ start → s.length < t.length →
          isDir (assetsName :: t) = false) :=
  ⟨find_assets_dir_none_iff isDir start, find_assets_dir_some isDir start⟩

/-- Witness for C4 (amended) at a concrete two-component start path. -/
theorem claim4_witness :
    ∃ s, s ≠ [] ∧ s <:+ ["b".toList, "a".toList] ∧
      [assetsName, "a".toList] = assetsName :: s ∧
      childMarker [assetsName, "a".toList] = true ∧
      ∀ t, t ≠ [] → t <:+ ["b".toList, "a".toList] → s.length < t.length →
        childMarker (assetsName :: t) = false :=
  (claim4_amended childMarker ["b".toList, "a".toList]).2
    [assetsName, "a".toList] (by decide)

/-- C5: when two sidecar files declare the same identifier, the Candidate
Index retains exactly one entry for it, mapped to the value assigned last
in enumeration order (last-write-wins). -/
theorem claim5_last_write_wins (fs : ProjectFS) (g : Str)
    (hdup : 2 ≤ ((metaStream fs).filter (fun x => x.1 = g)).length) :
    ((find_assets_to_check fs).filter (fun x => x.1 = g)).length = 1 ∧
      dlookup (find_assets_to_check fs) g = lastVal (metaStream fs) g := by
  have hlook : dlookup (find_assets_to_check fs) g = lastVal (metaStream fs) g := by
    rw [find_assets_to_check_eq, dlookup_buildIndex]
    exact Option.or_none
  refine ⟨?_, hlook⟩
  apply length_filter_key_eq_one _ _ (nodup_keys_index fs)
  apply dlookup_isSome_key_mem
  rw [hlook]
  unfold lastVal
  cases hfil : (metaStream fs).filter (fun x => x.1 = g) with
  | nil => rw [hfil] at hdup; cases hdup
  | cons q qs =>
    rw [List.map_cons, getLast?_cons_eq_or]
    cases (qs.map Prod.snd).getLast? <;> rfl

/-- Witness for C5: two sidecars declaring `gA`; the index keeps one entry
mapped to the later asset. -/
theorem claim5_witness :
    ((find_assets_to_check sampleDupFS).filter (fun x => x.1 = gA)).length = 1 ∧
      dlookup (find_assets_to_check sampleDupFS) gA =
        lastVal (metaStream sampleDupFS) gA :=
  claim5_last_write_wins sampleDupFS gA (by decide)

/-- C6: the per-identifier search short-circuits with `(asset path, true)` at
the first matching corpus file — the result does not depend on the files
after it; it returns `(asset path, false)` exactly when every corpus file
fails to read or lacks the identifier (exhaustion); and a file whose read
fails is skipped exactly as if it were absent, never aborting the search. -/
theorem claim6_resolver_contract (readFile : Str → Option Str)
    (guid asset_path : Str) :
    (∀ pre f post, (∀ q ∈ pre, fileMatches readFile guid q = false) →
      fileMatches readFile guid f = true →
      find_references_to_guid readFile guid (pre ++ f :: post) asset_path =
        (asset_path, true)) ∧
    (∀ files, find_references_to_guid readFile guid files asset_path =
        (asset_path, false) ↔ ∀ f ∈ files, fileMatches readFile guid f = false) ∧
    (∀ pre f post, readFile f = none →
      find_references_to_guid readFile guid (pre ++ f :: post) asset_path =
        find_references_to_guid readFile guid (pre ++ post) asset_path) := by
  refine ⟨?_, ?_, ?_⟩
  · intro pre f post _ hf
    rw [find_references_to_guid_eq, List.any_append, List.any_cons, hf]
    simp
  · intro files
    exact find_references_false_iff readFile guid files asset_path
  · intro pre f post hread
    rw [find_references_to_guid_eq, find_references_to_guid_eq]
    have hne : fileMatches readFile guid f = false := by
      unfold fileMatches
      rw [hread]
    rw [List.any_append, List.any_cons, hne, List.any_append]
    simp

/-- Witness for C6: with `gB` matching in `r/x.mat` placed after a
non-matching file and before an arbitrary further file, the search
short-circuits to `(asset, true)`. -/
theorem claim6_witness :
    find_references_to_guid (decodedRead sampleFS) gB
      (["r/y.mat".toList] ++ "r/x.mat".toList :: ["q".toList]) ("r/y.mat".toList) =
      ("r/y.mat".toList, true) :=
  (claim6_resolver_contract (decodedRead sampleFS) gB ("r/y.mat".toList)).1
    ["r/y.mat".toList] ("r/x.mat".toList) ["q".toList] (by decide) (by decide)

/-- C7: a successful extraction returns exactly the 32-character lowercase
hex token captured at the leftmost position where the `guid:` pattern
matches; extraction fails exactly when no position matches; and a sidecar
whose extraction fails contributes no entry to the Candidate Index. -/
theorem claim7_extraction_exact (fs : ProjectFS) :
    (∀ cs tok, searchGuid cs = some tok →
      tok.length = 32 ∧ tok.all isHexLowerDigit = true ∧
      ∃ i, matchGuidAt (cs.drop i) = some tok ∧
        ∀ j, j < i → matchGuidAt (cs.drop j) = none) ∧
    (∀ cs, searchGuid cs = none → ∀ i, matchGuidAt (cs.drop i) = none) ∧
    (∀ root file, get_guid_from_meta (decodedRead fs) (pjoin root file) = none →
      metaContrib fs root file = none) := by
  refine ⟨?_, searchGuid_none, ?_⟩
  · intro cs tok h
    obtain ⟨i, hi, hj⟩ := searchGuid_some cs tok h
    obtain ⟨_, _, hlen, hhex⟩ := matchGuidAt_some _ tok hi
    exact ⟨hlen, hhex, i, hi, hj⟩
  · intro root file h
    unfold metaContrib
    by_cases h1 : endsWith file metaSuffix = true
    · rw [if_pos h1]
      by_cases h2 : (fs.pathExists (pjoin root (stripLast file 5)) &&
          !fs.isDirPath (pjoin root (stripLast file 5))) = true
      · rw [if_pos h2, h]
      · rw [if_neg h2]
    · rw [if_neg h1]

/-- Witness for C7: extraction from `guid: aaaa…a` returns the 32-character
token `gA`, matched at position 0. -/
theorem claim7_witness :
    gA.length = 32 ∧ gA.all isHexLowerDigit = true ∧
      ∃ i, matchGuidAt ((guidLabel ++ gA).drop i) = some gA ∧
        ∀ j, j < i → matchGuidAt ((guidLabel ++ gA).drop j) = none :=
  (claim7_extraction_exact sampleFS).1 (guidLabel ++ gA) gA (by decide)

/-- C8: on the same (unmodified) filesystem, two runs of the pipeline whose
per-identifier results are delivered in any completion orders of the same
candidate index produce Result Sets that are permutations of one another
(order-independent set equality). -/
theorem claim8_idempotent_result_set (fs : ProjectFS) (exts : List Str)
    (order₁ order₂ : List (Str × Str))
    (h₁ : order₁.Perm (find_assets_to_check fs))
    (h₂ : order₂.Perm (find_assets_to_check fs)) :
    (runPipelineWithOrder fs exts order₁).Perm (runPipelineWithOrder fs exts order₂) := by
  rw [runPipelineWithOrder_eq, runPipelineWithOrder_eq]
  exact ((h₁.trans h₂.symm).filter _).map Prod.snd

/-- Witness for C8: the sample run in submission order and in reversed
completion order give permutation-equal Result Sets. -/
theorem claim8_witness :
    (runPipelineWithOrder sampleFS matExt (find_assets_to_check sampleFS)).Perm
      (runPipelineWithOrder sampleFS matExt ((find_assets_to_check sampleFS).reverse)) :=
  claim8_idempotent_result_set sampleFS matExt _ _ (List.Perm.refl _) (by decide)

end ClutterCutter
